import Mathlib

/-!
Verification of the coverage collection engine (`Coverage.ts`):
the `convertToDisjointRanges` sweep-line range merger and the
`JSCoverage` / `CSSCoverage` session trackers.

Conventions of the embedding:
* Protocol offsets and hit counts are unsigned integers (`u32` in the data
  model), so they are modelled as `Nat`.  Length comparisons inside the sort
  comparator are carried out in `Int`, matching JS number subtraction.
* `Array.prototype.sort` is required to be stable, and the comparator used by
  the merger returns `a - b` style values; a stable sort with the relation
  `comparePoints a b ≤ 0` produces exactly the same list, so the stable
  `List.insertionSort` is used as the model of the sort call.
* The JS `Map` preserves insertion order and `set` on an existing key updates
  the value in place; it is modelled by an association list with an
  order-preserving update.
* Async protocol interaction is shallowly embedded: event handlers and `stop`
  take the protocol responses (source-fetch outcome, profiler snapshot, rule
  usage list) as explicit arguments, and fallible operations return
  `Except String _` together with the post-state.
-/

/-- A usage range as reported by the target:
`{startOffset, endOffset, count}`. -/
structure UsageRange where
  startOffset : Nat
  endOffset : Nat
  count : Nat
deriving DecidableEq, Repr

/-- An output range of the merger: `{start, end}`. -/
structure DisjointRange where
  start : Nat
  «end» : Nat
deriving DecidableEq, Repr

/-- A sweep boundary point: `{offset, type, range}` with `type = 0` for a
start point and `type = 1` for an end point, as pushed by
`convertToDisjointRanges`. -/
structure Point where
  offset : Nat
  type : Nat
  range : UsageRange
deriving DecidableEq, Repr

/-- Value `range.endOffset - range.startOffset` as computed by the comparator
(JS subtraction, so signed). -/
def rangeLength (r : UsageRange) : Int :=
  (r.endOffset : Int) - (r.startOffset : Int)

/-- The sort comparator of `convertToDisjointRanges`: increasing offsets;
at equal offsets end points before start points; among start points longer
range first; among end points shorter range first. -/
def comparePoints (a b : Point) : Int :=
  if a.offset ≠ b.offset then (a.offset : Int) - (b.offset : Int)
  else if a.type ≠ b.type then (b.type : Int) - (a.type : Int)
  else if a.type = 0 then rangeLength b.range - rangeLength a.range
  else rangeLength a.range - rangeLength b.range

/-- Relation: `a` sorts no later than `b` under the comparator. A stable sort with
this relation coincides with the JS stable `sort(comparePoints)`. -/
def PointLE (a b : Point) : Prop :=
  comparePoints a b ≤ 0

instance : DecidableRel PointLE := fun a b =>
  inferInstanceAs (Decidable (comparePoints a b ≤ 0))

/-- The start point pushed for a range. -/
def openPoint (r : UsageRange) : Point :=
  { offset := r.startOffset, type := 0, range := r }

/-- The end point pushed for a range. -/
def closePoint (r : UsageRange) : Point :=
  { offset := r.endOffset, type := 1, range := r }

/-- The point list built by the first loop of `convertToDisjointRanges`:
for each range, its start point then its end point. -/
def pointsOf (nestedRanges : List UsageRange) : List Point :=
  nestedRanges.flatMap fun r => [openPoint r, closePoint r]

/-- State of the scanning loop: the hit-count stack (head = top), the result
ranges built so far (head = most recently pushed) and `lastOffset`. -/
structure SweepState where
  hitCountStack : List Nat
  results : List DisjointRange
  lastOffset : Nat
deriving DecidableEq, Repr

/-- Record covered territory `[lastOffset, offset)`: extend the last result
if it ends exactly at `lastOffset`, else push a new range. `results` is kept
most-recent-first. -/
def recordCovered (results : List DisjointRange) (lastOffset offset : Nat) :
    List DisjointRange :=
  match results with
  | lastResult :: rest =>
    if lastResult.«end» = lastOffset then
      { start := lastResult.start, «end» := offset } :: rest
    else
      { start := lastOffset, «end» := offset } :: lastResult :: rest
  | [] => [{ start := lastOffset, «end» := offset }]

/-- One iteration of the scanning loop of `convertToDisjointRanges`. -/
def sweepStep (st : SweepState) (p : Point) : SweepState :=
  let results :=
    match st.hitCountStack with
    | top :: _ =>
      if st.lastOffset < p.offset ∧ 0 < top then
        recordCovered st.results st.lastOffset p.offset
      else st.results
    | [] => st.results
  { hitCountStack :=
      if p.type = 0 then p.range.count :: st.hitCountStack
      else st.hitCountStack.tail
    results := results
    lastOffset := p.offset }

/-- The full scanning loop, starting from the empty stack, no results and
`lastOffset = 0`. -/
def sweep (points : List Point) : SweepState :=
  points.foldl sweepStep { hitCountStack := [], results := [], lastOffset := 0 }

/-- Model of `convertToDisjointRanges`: build the boundary points, sort them with the
comparator, run the scanning loop, and filter out empty ranges. -/
def convertToDisjointRanges (nestedRanges : List UsageRange) :
    List DisjointRange :=
  let points := (pointsOf nestedRanges).insertionSort PointLE
  ((sweep points).results.reverse).filter fun range =>
    0 < range.«end» - range.start

/-- A position `q` lies in one of the ranges of a merger output list. -/
def inRanges (l : List DisjointRange) (q : Nat) : Prop :=
  ∃ r ∈ l, r.start ≤ q ∧ q < r.«end»

instance (l : List DisjointRange) (q : Nat) : Decidable (inRanges l q) :=
  inferInstanceAs (Decidable (∃ r ∈ l, _ ∧ _))

/-- A position `q` is contained in some input range with positive hit
count (the spec's notion of the union of covered input ranges). -/
def coveredByInput (l : List UsageRange) (q : Nat) : Prop :=
  ∃ r ∈ l, 0 < r.count ∧ r.startOffset ≤ q ∧ q < r.endOffset

instance (l : List UsageRange) (q : Nat) : Decidable (coveredByInput l q) :=
  inferInstanceAs (Decidable (∃ r ∈ l, _ ∧ _ ∧ _))

example :
    convertToDisjointRanges
      [⟨0, 10, 1⟩, ⟨2, 5, 1⟩] = [⟨0, 10⟩] := by decide

example :
    convertToDisjointRanges
      [⟨0, 10, 1⟩, ⟨2, 5, 0⟩] = [⟨0, 2⟩, ⟨5, 10⟩] := by decide

/-! ### Uniqueness of canonical disjoint decompositions -/

/-- Two sorted, strictly separated lists of nonempty ranges covering the
same positions are equal. -/
theorem canonical_unique :
    ∀ (l1 l2 : List DisjointRange),
    l1.Pairwise (fun a b => a.«end» < b.start) →
    (∀ r ∈ l1, r.start < r.«end») →
    l2.Pairwise (fun a b => a.«end» < b.start) →
    (∀ r ∈ l2, r.start < r.«end») →
    (∀ q, inRanges l1 q ↔ inRanges l2 q) →
    l1 = l2
  | [], [], _, _, _, _, _ => rfl
  | [], b :: t2, _, _, _, hne2, hiff => by
    exfalso
    have hb : inRanges (b :: t2) b.start :=
      ⟨b, by simp, le_refl _, hne2 b (by simp)⟩
    obtain ⟨r, hr, _⟩ := (hiff b.start).mpr hb
    simp at hr
  | a :: t1, [], _, hne1, _, _, hiff => by
    exfalso
    have ha : inRanges (a :: t1) a.start :=
      ⟨a, by simp, le_refl _, hne1 a (by simp)⟩
    obtain ⟨r, hr, _⟩ := (hiff a.start).mp ha
    simp at hr
  | a :: t1, b :: t2, hsep1, hne1, hsep2, hne2, hiff => by
    have ha : a.start < a.«end» := hne1 a (by simp)
    have hb : b.start < b.«end» := hne2 b (by simp)
    have hsep1' : ∀ r ∈ t1, a.«end» < r.start :=
      fun r hr => (List.pairwise_cons.mp hsep1).1 r hr
    have hsep2' : ∀ r ∈ t2, b.«end» < r.start :=
      fun r hr => (List.pairwise_cons.mp hsep2).1 r hr
    -- the minimum covered position of each side is its head's start
    have hmin1 : ∀ q, inRanges (a :: t1) q → a.start ≤ q := by
      rintro q ⟨r, hr, hq1, _⟩
      rcases List.mem_cons.mp hr with rfl | hr'
      · exact hq1
      · have := hsep1' r hr'
        omega
    have hmin2 : ∀ q, inRanges (b :: t2) q → b.start ≤ q := by
      rintro q ⟨r, hr, hq1, _⟩
      rcases List.mem_cons.mp hr with rfl | hr'
      · exact hq1
      · have := hsep2' r hr'
        omega
    have hstart : a.start = b.start := by
      have h1 : b.start ≤ a.start :=
        hmin2 a.start ((hiff a.start).mp ⟨a, by simp, le_refl _, ha⟩)
      have h2 : a.start ≤ b.start :=
        hmin1 b.start ((hiff b.start).mpr ⟨b, by simp, le_refl _, hb⟩)
      omega
    -- neither side covers its head's end position
    have hnc1 : ¬ inRanges (a :: t1) a.«end» := by
      rintro ⟨r, hr, hq1, hq2⟩
      rcases List.mem_cons.mp hr with rfl | hr'
      · omega
      · have := hsep1' r hr'
        omega
    have hnc2 : ¬ inRanges (b :: t2) b.«end» := by
      rintro ⟨r, hr, hq1, hq2⟩
      rcases List.mem_cons.mp hr with rfl | hr'
      · omega
      · have := hsep2' r hr'
        omega
    have hend : a.«end» = b.«end» := by
      by_contra hne
      rcases Nat.lt_or_ge a.«end» b.«end» with hlt | hge
      · exact hnc1 ((hiff a.«end»).mpr ⟨b, by simp, by omega, hlt⟩)
      · have hlt : b.«end» < a.«end» := by omega
        exact hnc2 ((hiff b.«end»).mp ⟨a, by simp, by omega, hlt⟩)
    have hab : a = b := by
      cases a; cases b
      simp only at hstart hend
      simp [hstart, hend]
    subst hab
    have htails : ∀ q, inRanges t1 q ↔ inRanges t2 q := by
      intro q
      constructor
      · rintro ⟨r, hr, hq1, hq2⟩
        have hgt : a.«end» < q := by
          have := hsep1' r hr
          omega
        have hq : inRanges (a :: t2) q :=
          (hiff q).mp ⟨r, List.mem_cons_of_mem _ hr, hq1, hq2⟩
        obtain ⟨r', hr', hq1', hq2'⟩ := hq
        rcases List.mem_cons.mp hr' with rfl | hr''
        · omega
        · exact ⟨r', hr'', hq1', hq2'⟩
      · rintro ⟨r, hr, hq1, hq2⟩
        have hgt : a.«end» < q := by
          have := hsep2' r hr
          omega
        have hq : inRanges (a :: t1) q :=
          (hiff q).mpr ⟨r, List.mem_cons_of_mem _ hr, hq1, hq2⟩
        obtain ⟨r', hr', hq1', hq2'⟩ := hq
        rcases List.mem_cons.mp hr' with rfl | hr''
        · omega
        · exact ⟨r', hr'', hq1', hq2'⟩
    have := canonical_unique t1 t2 (List.pairwise_cons.mp hsep1).2
      (fun r hr => hne1 r (List.mem_cons_of_mem _ hr))
      (List.pairwise_cons.mp hsep2).2
      (fun r hr => hne2 r (List.mem_cons_of_mem _ hr)) htails
    rw [this]

/-! ### Order properties of the comparator -/

theorem comparePoints_neg (a b : Point) :
    comparePoints b a = -comparePoints a b := by
  unfold comparePoints
  split_ifs <;> omega

theorem pointLE_total (a b : Point) : PointLE a b ∨ PointLE b a := by
  unfold PointLE
  rw [comparePoints_neg a b]
  omega

theorem pointLE_trans {a b c : Point} (hab : PointLE a b) (hbc : PointLE b c) :
    PointLE a c := by
  unfold PointLE comparePoints at *
  split_ifs at * <;> omega

instance : IsTotal Point PointLE := ⟨pointLE_total⟩

instance : IsTrans Point PointLE := ⟨fun _ _ _ => pointLE_trans⟩

theorem PointLE.offset_le {a b : Point} (h : PointLE a b) :
    a.offset ≤ b.offset := by
  unfold PointLE comparePoints at h
  split_ifs at h <;> omega

/-- If the comparator ties in both directions, the two points have the same
offset, the same type, and ranges of the same length. -/
theorem comparePoints_tie {a b : Point} (hab : PointLE a b) (hba : PointLE b a) :
    a.offset = b.offset ∧ a.type = b.type ∧
      rangeLength a.range = rangeLength b.range := by
  unfold PointLE comparePoints at hab hba
  split_ifs at hab hba <;> omega

/-- The sorted point list used by `convertToDisjointRanges`. -/
def sortedPoints (nestedRanges : List UsageRange) : List Point :=
  (pointsOf nestedRanges).insertionSort PointLE

theorem sortedPoints_sorted (R : List UsageRange) :
    (sortedPoints R).Sorted PointLE :=
  List.sorted_insertionSort PointLE (pointsOf R)

theorem sortedPoints_perm (R : List UsageRange) :
    (sortedPoints R).Perm (pointsOf R) :=
  List.perm_insertionSort PointLE (pointsOf R)

/-! ### Structural invariants of the scanning loop

The result list is kept most-recent-first during the sweep; `ResultsInv`
states that (in that orientation) all ranges are nonempty, pairwise strictly
separated, and end no later than the current `lastOffset`. -/

def ResultsInv (results : List DisjointRange) (lo : Nat) : Prop :=
  (∀ r ∈ results, r.start < r.«end») ∧
  results.Pairwise (fun a b => b.«end» < a.start) ∧
  (∀ r ∈ results, r.«end» ≤ lo)

theorem ResultsInv.mono {results : List DisjointRange} {lo lo' : Nat}
    (h : ResultsInv results lo) (hle : lo ≤ lo') : ResultsInv results lo' :=
  ⟨h.1, h.2.1, fun r hr => le_trans (h.2.2 r hr) hle⟩

theorem recordCovered_inv {results : List DisjointRange} {lo off : Nat}
    (h : ResultsInv results lo) (hlt : lo < off) :
    ResultsInv (recordCovered results lo off) off := by
  obtain ⟨hne, hsep, hub⟩ := h
  cases results with
  | nil =>
    refine ⟨?_, ?_, ?_⟩ <;> simp [recordCovered] <;> omega
  | cons lastResult rest =>
    have hlast : lastResult.start < lastResult.«end» := hne lastResult (by simp)
    have hlastub : lastResult.«end» ≤ lo := hub lastResult (by simp)
    have hsep' : ∀ b ∈ rest, b.«end» < lastResult.start :=
      fun b hb => (List.pairwise_cons.mp hsep).1 b hb
    have hsepRest := (List.pairwise_cons.mp hsep).2
    by_cases hext : lastResult.«end» = lo
    · refine ⟨?_, ?_, ?_⟩
      · intro r hr
        simp only [recordCovered, if_pos hext, List.mem_cons] at hr
        rcases hr with rfl | hr
        · show lastResult.start < off
          omega
        · exact hne r (by simp [hr])
      · simp only [recordCovered, if_pos hext, List.pairwise_cons]
        exact ⟨fun b hb => hsep' b hb, hsepRest⟩
      · intro r hr
        simp only [recordCovered, if_pos hext, List.mem_cons] at hr
        rcases hr with rfl | hr
        · show off ≤ off
          omega
        · have hb : r.«end» < lastResult.start := hsep' r hr
          omega
    · have hlt' : lastResult.«end» < lo := lt_of_le_of_ne hlastub hext
      refine ⟨?_, ?_, ?_⟩
      · intro r hr
        simp only [recordCovered, if_neg hext, List.mem_cons] at hr
        rcases hr with rfl | rfl | hr
        · show lo < off
          omega
        · exact hlast
        · exact hne r (by simp [hr])
      · simp only [recordCovered, if_neg hext, List.pairwise_cons]
        have hall : ∀ b ∈ lastResult :: rest, b.«end» < lo := by
          intro b hb
          rcases List.mem_cons.mp hb with rfl | hb'
          · exact hlt'
          · have h1 : b.«end» < lastResult.start := hsep' b hb'
            omega
        exact ⟨fun b hb => hall b hb, ⟨fun b hb => hsep' b hb, hsepRest⟩⟩
      · intro r hr
        simp only [recordCovered, if_neg hext, List.mem_cons] at hr
        rcases hr with rfl | rfl | hr
        · show off ≤ off
          omega
        · omega
        · have hb : r.«end» ≤ lo := hub r (by simp [hr])
          omega

theorem sweepStep_inv {st : SweepState} {p : Point}
    (h : ResultsInv st.results st.lastOffset)
    (hle : st.lastOffset ≤ p.offset) :
    ResultsInv (sweepStep st p).results p.offset := by
  unfold sweepStep
  cases hstk : st.hitCountStack with
  | nil => exact h.mono hle
  | cons top rest =>
    by_cases hc : st.lastOffset < p.offset ∧ 0 < top
    · simpa [hc] using recordCovered_inv h hc.1
    · simpa [hc] using h.mono hle

theorem sweepStep_lastOffset (st : SweepState) (p : Point) :
    (sweepStep st p).lastOffset = p.offset := rfl

theorem sweep_foldl_inv :
    ∀ (l : List Point) (st : SweepState),
    l.Pairwise (fun a b => a.offset ≤ b.offset) →
    (∀ p ∈ l, st.lastOffset ≤ p.offset) →
    ResultsInv st.results st.lastOffset →
    ResultsInv (l.foldl sweepStep st).results
      (l.foldl sweepStep st).lastOffset
  | [], _, _, _, hinv => hinv
  | p :: l, st, hsorted, hlo, hinv => by
    have hp := hlo p (by simp)
    have hinv' : ResultsInv (sweepStep st p).results
        (sweepStep st p).lastOffset := by
      rw [sweepStep_lastOffset]
      exact sweepStep_inv hinv hp
    refine sweep_foldl_inv l (sweepStep st p) (List.pairwise_cons.mp hsorted).2
      ?_ hinv'
    intro q hq
    rw [sweepStep_lastOffset]
    exact (List.pairwise_cons.mp hsorted).1 q hq

/-! ### Coverage characterization of the scanning loop -/

theorem inRanges_cons {r : DisjointRange} {l : List DisjointRange} {q : Nat} :
    inRanges (r :: l) q ↔ (r.start ≤ q ∧ q < r.«end») ∨ inRanges l q := by
  simp [inRanges]

theorem inRanges_recordCovered {results : List DisjointRange} {lo off q : Nat}
    (hne : ∀ r ∈ results, r.start < r.«end»)
    (hub : ∀ r ∈ results, r.«end» ≤ lo)
    (hlt : lo < off) :
    inRanges (recordCovered results lo off) q ↔
      (inRanges results q ∨ (lo ≤ q ∧ q < off)) := by
  cases results with
  | nil =>
    simp only [recordCovered, inRanges_cons]
    simp [inRanges]
  | cons lastResult rest =>
    have h1 : lastResult.start < lastResult.«end» := hne lastResult (by simp)
    have h2 : lastResult.«end» ≤ lo := hub lastResult (by simp)
    by_cases hext : lastResult.«end» = lo
    · simp only [recordCovered, if_pos hext, inRanges_cons]
      by_cases hrest : inRanges rest q
      · simp [hrest]
      · simp only [hrest, or_false]
        omega
    · simp only [recordCovered, if_neg hext, inRanges_cons]
      tauto

theorem mem_pointsOf {p : Point} {P : List UsageRange} :
    p ∈ pointsOf P ↔ ∃ r ∈ P, p = openPoint r ∨ p = closePoint r := by
  simp only [pointsOf, List.mem_flatMap, List.mem_cons, List.mem_singleton,
    List.not_mem_nil, or_false]

theorem pointsOf_perm {P Q : List UsageRange} (h : P.Perm Q) :
    (pointsOf P).Perm (pointsOf Q) :=
  h.flatMap_right _

theorem pointsOf_cons (r : UsageRange) (P : List UsageRange) :
    pointsOf (r :: P) = openPoint r :: closePoint r :: pointsOf P := rfl

theorem perm_shuffle_open {P A D R : List UsageRange} {r : UsageRange}
    (hrP : r ∈ P) (h : (P ++ A ++ D).Perm R) :
    (P.erase r ++ (r :: A) ++ D).Perm R := by
  have h1 : P.Perm (r :: P.erase r) := List.perm_cons_erase hrP
  have h2 : (P.erase r ++ (r :: A) ++ D).Perm (r :: (P.erase r ++ A ++ D)) :=
    List.perm_middle.append_right D
  have h3 : (P ++ A ++ D).Perm (r :: (P.erase r ++ A ++ D)) :=
    (h1.append_right A).append_right D
  exact h2.trans (h3.symm.trans h)

theorem perm_shuffle_close {P A D R : List UsageRange} {r : UsageRange}
    (hrA : r ∈ A) (h : (P ++ A ++ D).Perm R) :
    (P ++ A.erase r ++ (r :: D)).Perm R := by
  have h1 : A.Perm (r :: A.erase r) := List.perm_cons_erase hrA
  have h2 : (P ++ A.erase r ++ (r :: D)).Perm (r :: (P ++ A.erase r ++ D)) :=
    List.perm_middle
  have h3 : (P ++ A ++ D).Perm (r :: (P ++ A.erase r ++ D)) := by
    have ha : (P ++ A ++ D).Perm (P ++ (r :: A.erase r) ++ D) :=
      ((h1.append_left P).append_right D)
    exact ha.trans (List.perm_middle.append_right D)
  exact h2.trans (h3.symm.trans h)

theorem pts_shuffle_open {P A : List UsageRange} {l' : List Point}
    {r : UsageRange} (hrP : r ∈ P)
    (hpts : (openPoint r :: l').Perm (pointsOf P ++ A.map closePoint)) :
    l'.Perm (pointsOf (P.erase r) ++ (r :: A).map closePoint) := by
  have h1 : P.Perm (r :: P.erase r) := List.perm_cons_erase hrP
  have h2 : (pointsOf P ++ A.map closePoint).Perm
      (openPoint r :: (closePoint r :: pointsOf (P.erase r) ++
        A.map closePoint)) := by
    have := (pointsOf_perm h1).append_right (A.map closePoint)
    rw [pointsOf_cons] at this
    exact this
  have h3 : l'.Perm (closePoint r :: pointsOf (P.erase r) ++
      A.map closePoint) := (hpts.trans h2).cons_inv
  have h4 : (pointsOf (P.erase r) ++ (r :: A).map closePoint).Perm
      (closePoint r :: (pointsOf (P.erase r) ++ A.map closePoint)) := by
    simpa [List.map_cons] using
      (@List.perm_middle _ (closePoint r) (pointsOf (P.erase r))
        (A.map closePoint))
  exact h3.trans h4.symm

theorem pts_shuffle_close {P A : List UsageRange} {l' : List Point}
    {r : UsageRange} (hrA : r ∈ A)
    (hpts : (closePoint r :: l').Perm (pointsOf P ++ A.map closePoint)) :
    l'.Perm (pointsOf P ++ (A.erase r).map closePoint) := by
  have h1 : A.Perm (r :: A.erase r) := List.perm_cons_erase hrA
  have h2 : (pointsOf P ++ A.map closePoint).Perm
      (closePoint r :: (pointsOf P ++ (A.erase r).map closePoint)) := by
    have hm : (A.map closePoint).Perm
        (closePoint r :: (A.erase r).map closePoint) := by
      simpa [List.map_cons] using h1.map closePoint
    exact ((hm.append_left (pointsOf P)).trans List.perm_middle)
  exact (hpts.trans h2).cons_inv

theorem gap_covered {R P A D : List UsageRange} {l' : List Point} {p : Point}
    {lo q : Nat}
    (hR : ∀ r ∈ R, 0 < r.count ∧ r.startOffset < r.endOffset)
    (hPAD : (P ++ A ++ D).Perm R)
    (hpts : (p :: l').Perm (pointsOf P ++ A.map closePoint))
    (hoff : ∀ x ∈ p :: l', p.offset ≤ x.offset)
    (hA : ∀ r ∈ A, r.startOffset ≤ lo)
    (hAne : A ≠ [])
    (hq1 : lo ≤ q) (hq2 : q < p.offset) :
    coveredByInput R q := by
  obtain ⟨r, hr⟩ := List.exists_mem_of_ne_nil A hAne
  have hrR : r ∈ R := hPAD.subset (by simp [hr])
  have hclose : closePoint r ∈ p :: l' :=
    hpts.symm.subset (by simp [List.mem_append, List.mem_map]; right; exact ⟨r, hr, rfl⟩)
  have hoffr : p.offset ≤ r.endOffset := hoff (closePoint r) hclose
  exact ⟨r, hrR, (hR r hrR).1, le_trans (hA r hr) hq1, by omega⟩

theorem gap_uncovered {R P D : List UsageRange} {l' : List Point} {p : Point}
    {lo q : Nat}
    (hR : ∀ r ∈ R, 0 < r.count ∧ r.startOffset < r.endOffset)
    (hPAD : (P ++ [] ++ D).Perm R)
    (hpts : (p :: l').Perm (pointsOf P ++ List.map closePoint []))
    (hoff : ∀ x ∈ p :: l', p.offset ≤ x.offset)
    (hD : ∀ r ∈ D, r.endOffset ≤ lo)
    (hq1 : lo ≤ q) (hq2 : q < p.offset) :
    ¬ coveredByInput R q := by
  rintro ⟨r, hrR, hcount, hs, he⟩
  have hmem : r ∈ P ++ [] ++ D := hPAD.symm.subset hrR
  simp only [List.append_nil, List.mem_append] at hmem
  rcases hmem with hP | hD'
  · have hopen : openPoint r ∈ p :: l' :=
      hpts.symm.subset (by
        simp only [List.map_nil, List.append_nil]
        exact mem_pointsOf.mpr ⟨r, hP, Or.inl rfl⟩)
    have hoffr : p.offset ≤ r.startOffset := hoff (openPoint r) hopen
    omega
  · have := hD r hD'
    omega

@[simp] theorem openPoint_offset (r : UsageRange) :
    (openPoint r).offset = r.startOffset := rfl
@[simp] theorem openPoint_type (r : UsageRange) : (openPoint r).type = 0 := rfl
@[simp] theorem openPoint_range (r : UsageRange) : (openPoint r).range = r := rfl
@[simp] theorem closePoint_offset (r : UsageRange) :
    (closePoint r).offset = r.endOffset := rfl
@[simp] theorem closePoint_type (r : UsageRange) : (closePoint r).type = 1 := rfl
@[simp] theorem closePoint_range (r : UsageRange) :
    (closePoint r).range = r := rfl

/-- Main invariant induction for the scanning loop, under the hypotheses
that every input range has a positive hit count and positive length.
`P` holds the ranges with both boundary points still pending, `A` the ranges
opened but not yet closed (matching the hit-count stack), `D` the closed
ones. The conclusion characterizes the recorded results as exactly the
covered positions below the final `lastOffset`, which bounds every range
end. -/
theorem sweep_covers_go (R : List UsageRange)
    (hR : ∀ r ∈ R, 0 < r.count ∧ r.startOffset < r.endOffset) :
    ∀ (l : List Point) (st : SweepState) (P A D : List UsageRange),
    l.Pairwise (fun a b => a.offset ≤ b.offset) →
    (∀ p ∈ l, st.lastOffset ≤ p.offset) →
    (P ++ A ++ D).Perm R →
    l.Perm (pointsOf P ++ A.map closePoint) →
    (∀ r ∈ A, r.startOffset ≤ st.lastOffset) →
    (∀ r ∈ D, r.endOffset ≤ st.lastOffset) →
    st.hitCountStack.length = A.length →
    (∀ c ∈ st.hitCountStack, 0 < c) →
    ResultsInv st.results st.lastOffset →
    (∀ q, inRanges st.results q ↔ q < st.lastOffset ∧ coveredByInput R q) →
    (∀ q, inRanges ((l.foldl sweepStep st).results) q ↔
        (q < (l.foldl sweepStep st).lastOffset ∧ coveredByInput R q)) ∧
    (∀ r ∈ R, r.endOffset ≤ (l.foldl sweepStep st).lastOffset) := by
  intro l
  induction l with
  | nil =>
    intro st P A D _ _ hPAD hpts hA hD hstack hpos hinv hres
    refine ⟨hres, ?_⟩
    have hnil : pointsOf P ++ A.map closePoint = [] := hpts.symm.eq_nil
    rw [List.append_eq_nil] at hnil
    have hPnil : P = [] := by
      cases P with
      | nil => rfl
      | cons r P' => simp [pointsOf_cons] at hnil
    have hAnil : A = [] := List.map_eq_nil.mp hnil.2
    subst hPnil; subst hAnil
    simp only [List.nil_append] at hPAD
    intro r hr
    exact hD r (hPAD.symm.subset hr)
  | cons p l' ih =>
    intro st P A D hsor hlo hPAD hpts hA hD hstack hpos hinv hres
    have hploff : st.lastOffset ≤ p.offset := hlo p (by simp)
    have hoff : ∀ x ∈ p :: l', p.offset ≤ x.offset := by
      intro x hx
      rcases List.mem_cons.mp hx with rfl | hx'
      · exact le_refl _
      · exact (List.pairwise_cons.mp hsor).1 x hx'
    have hsor' := (List.pairwise_cons.mp hsor).2
    have hinv' : ResultsInv (sweepStep st p).results p.offset :=
      sweepStep_inv hinv hploff
    have hres' : ∀ q, inRanges (sweepStep st p).results q ↔
        q < p.offset ∧ coveredByInput R q := by
      intro q
      rcases hstk : st.hitCountStack with _ | ⟨top, stkrest⟩
      · have hAnil : A = [] := by
          apply List.length_eq_zero.mp
          rw [← hstack, hstk]
          rfl
        have hres0 : (sweepStep st p).results = st.results := by
          simp [sweepStep, hstk]
        rw [hres0, hres q]
        constructor
        · rintro ⟨hq, hcov⟩
          exact ⟨lt_of_lt_of_le hq hploff, hcov⟩
        · rintro ⟨hq, hcov⟩
          refine ⟨?_, hcov⟩
          by_contra hcon
          push_neg at hcon
          subst hAnil
          exact gap_uncovered hR hPAD hpts hoff hD hcon hq hcov
      · have hAne : A ≠ [] := by
          apply List.length_pos.mp
          rw [← hstack, hstk]
          simp
        have htop : 0 < top := hpos top (by rw [hstk]; simp)
        by_cases hlt : st.lastOffset < p.offset
        · have hrec : (sweepStep st p).results =
              recordCovered st.results st.lastOffset p.offset := by
            simp [sweepStep, hstk, hlt, htop]
          rw [hrec, inRanges_recordCovered hinv.1 hinv.2.2 hlt, hres q]
          constructor
          · rintro (⟨hq, hcov⟩ | ⟨hq1, hq2⟩)
            · exact ⟨by omega, hcov⟩
            · exact ⟨hq2, gap_covered hR hPAD hpts hoff hA hAne hq1 hq2⟩
          · rintro ⟨hq, hcov⟩
            by_cases hql : q < st.lastOffset
            · exact Or.inl ⟨hql, hcov⟩
            · exact Or.inr ⟨by omega, hq⟩
        · have heq : st.lastOffset = p.offset :=
            le_antisymm hploff (not_lt.mp hlt)
          have hres0 : (sweepStep st p).results = st.results := by
            simp [sweepStep, hstk, hlt]
          rw [hres0, hres q, heq]
    rw [List.foldl_cons]
    have hporigin := hpts.subset (List.mem_cons_self p l')
    rw [List.mem_append] at hporigin
    rcases hporigin with hpP | hpA
    · rcases mem_pointsOf.mp hpP with ⟨r, hrP, hcase⟩
      have hrR : r ∈ R := hPAD.subset (by simp [hrP])
      rcases hcase with rfl | rfl
      · -- p is the open point of a pending range r
        have hstk1 : (sweepStep st (openPoint r)).hitCountStack =
            r.count :: st.hitCountStack := by
          simp [sweepStep]
        apply ih (sweepStep st (openPoint r)) (P.erase r) (r :: A) D hsor'
        · intro x hx
          exact hoff x (List.mem_cons_of_mem _ hx)
        · exact perm_shuffle_open hrP hPAD
        · exact pts_shuffle_open hrP hpts
        · intro r' hr'
          rcases List.mem_cons.mp hr' with rfl | hr''
          · simp [sweepStep_lastOffset]
          · rw [sweepStep_lastOffset]
            simp only [openPoint_offset]
            exact le_trans (hA r' hr'') (by simpa using hploff)
        · intro r' hr'
          rw [sweepStep_lastOffset]
          simp only [openPoint_offset]
          exact le_trans (hD r' hr') (by simpa using hploff)
        · rw [hstk1]
          simp [hstack]
        · intro c hc
          rw [hstk1] at hc
          rcases List.mem_cons.mp hc with rfl | hc'
          · exact (hR r hrR).1
          · exact hpos c hc'
        · rw [sweepStep_lastOffset]
          exact hinv'
        · rw [sweepStep_lastOffset]
          exact hres'
      · -- p cannot be the close point of a pending range
        exfalso
        have hopen : openPoint r ∈ closePoint r :: l' :=
          hpts.symm.subset (by
            rw [List.mem_append]
            exact Or.inl (mem_pointsOf.mpr ⟨r, hrP, Or.inl rfl⟩))
        have h1 : (closePoint r).offset ≤ (openPoint r).offset :=
          hoff _ hopen
        have h2 : r.startOffset < r.endOffset := (hR r hrR).2
        simp only [closePoint_offset, openPoint_offset] at h1
        omega
    · -- p is the close point of an active range r
      rcases List.mem_map.mp hpA with ⟨r, hrA, rfl⟩
      have hrR : r ∈ R := hPAD.subset (by simp [hrA])
      have hstk1 : (sweepStep st (closePoint r)).hitCountStack =
          st.hitCountStack.tail := by
        simp [sweepStep]
      apply ih (sweepStep st (closePoint r)) P (A.erase r) (r :: D) hsor'
      · intro x hx
        exact hoff x (List.mem_cons_of_mem _ hx)
      · exact perm_shuffle_close hrA hPAD
      · exact pts_shuffle_close hrA hpts
      · intro r' hr'
        rw [sweepStep_lastOffset]
        simp only [closePoint_offset]
        exact le_trans (hA r' (List.mem_of_mem_erase hr'))
          (by simpa using hploff)
      · intro r' hr'
        rw [sweepStep_lastOffset]
        simp only [closePoint_offset]
        rcases List.mem_cons.mp hr' with rfl | hr''
        · exact le_refl _
        · exact le_trans (hD r' hr'') (by simpa using hploff)
      · rw [hstk1, List.length_tail, hstack, List.length_erase_of_mem hrA]
      · intro c hc
        rw [hstk1] at hc
        cases hcs : st.hitCountStack with
        | nil => rw [hcs] at hc; simp at hc
        | cons c0 cs =>
          rw [hcs] at hc
          exact hpos c (by rw [hcs]; exact List.mem_cons_of_mem _ hc)
      · rw [sweepStep_lastOffset]
        exact hinv'
      · rw [sweepStep_lastOffset]
        exact hres'

theorem inRanges_filter_pos (l : List DisjointRange) (q : Nat) :
    inRanges (l.filter fun r => 0 < r.«end» - r.start) q ↔ inRanges l q := by
  constructor
  · rintro ⟨r, hr, hq⟩
    exact ⟨r, List.mem_of_mem_filter hr, hq⟩
  · rintro ⟨r, hr, hq1, hq2⟩
    refine ⟨r, List.mem_filter.mpr ⟨hr, ?_⟩, hq1, hq2⟩
    simp only [decide_eq_true_eq]
    omega

theorem inRanges_reverse (l : List DisjointRange) (q : Nat) :
    inRanges l.reverse q ↔ inRanges l q := by
  simp [inRanges]

/-- Coverage fidelity of the merger when every input range has a positive
hit count and positive length: a position lies in the output iff it lies in
some input range. -/
theorem convert_covers (R : List UsageRange)
    (hR : ∀ r ∈ R, 0 < r.count ∧ r.startOffset < r.endOffset) (q : Nat) :
    inRanges (convertToDisjointRanges R) q ↔ coveredByInput R q := by
  have hsorted : (sortedPoints R).Pairwise fun a b => a.offset ≤ b.offset :=
    (sortedPoints_sorted R).imp fun h => h.offset_le
  have hmain := sweep_covers_go R hR (sortedPoints R)
    { hitCountStack := [], results := [], lastOffset := 0 } R [] []
    hsorted (fun p _ => Nat.zero_le _) (by simp)
    (by simpa using sortedPoints_perm R)
    (by simp) (by simp) rfl (by simp)
    ⟨by simp, by simp, by simp⟩
    (by intro q0; simp [inRanges])
  obtain ⟨hchar, hub⟩ := hmain
  have hdef : convertToDisjointRanges R =
      (((sweep (sortedPoints R)).results).reverse).filter
        (fun range => decide (0 < range.«end» - range.start)) := rfl
  rw [hdef]
  rw [show (fun range => decide (0 < range.«end» - range.start)) =
      (fun range : DisjointRange =>
        decide (0 < range.«end» - range.start)) from rfl]
  rw [inRanges_filter_pos, inRanges_reverse]
  unfold sweep
  rw [hchar q]
  constructor
  · rintro ⟨_, hcov⟩
    exact hcov
  · intro hcov
    refine ⟨?_, hcov⟩
    obtain ⟨r, hr, _, _, hq⟩ := hcov
    have := hub r hr
    omega

/-- The merger output (chronological order), before the final filter, is
canonical; and the filter is the identity on it. -/
theorem convert_canonical (R : List UsageRange) :
    (convertToDisjointRanges R).Pairwise (fun a b => a.«end» < b.start) ∧
    ∀ r ∈ convertToDisjointRanges R, r.start < r.«end» := by
  have hsorted : (sortedPoints R).Pairwise fun a b => a.offset ≤ b.offset :=
    (sortedPoints_sorted R).imp fun h => h.offset_le
  have hinv := sweep_foldl_inv (sortedPoints R)
    { hitCountStack := [], results := [], lastOffset := 0 }
    hsorted (by intro p _; exact Nat.zero_le _)
    ⟨by simp, by simp, by simp⟩
  obtain ⟨hne, hsep, _⟩ := hinv
  have hdef :
      convertToDisjointRanges R =
        (((sweep (sortedPoints R)).results).reverse).filter
          (fun range => decide (0 < range.«end» - range.start)) := rfl
  have hfilter :
      convertToDisjointRanges R =
        ((sweep (sortedPoints R)).results).reverse := by
    rw [hdef, List.filter_eq_self]
    intro r hr
    rw [List.mem_reverse] at hr
    have hlt : r.start < r.«end» := hne r hr
    simpa using Nat.sub_pos_of_lt hlt
  constructor
  · rw [hfilter, List.pairwise_reverse]
    exact hsep
  · intro r hr
    rw [hfilter, List.mem_reverse] at hr
    exact hne r hr

/-! ### Permutation invariance of the merger -/

/-- Two sorted lists that are permutations of each other are equal, given
antisymmetry of the order on the members of the first. -/
theorem sorted_perm_eq :
    ∀ {l1 l2 : List Point}, l1.Perm l2 →
    l1.Pairwise PointLE → l2.Pairwise PointLE →
    (∀ a ∈ l1, ∀ b ∈ l1, PointLE a b → PointLE b a → a = b) →
    l1 = l2 := by
  intro l1
  induction l1 with
  | nil =>
    intro l2 hp _ _ _
    exact hp.nil_eq
  | cons a t1 ih =>
    intro l2 hp hs1 hs2 hanti
    cases l2 with
    | nil => exact absurd hp.symm.nil_eq (by simp)
    | cons b t2 =>
      have hab : a = b := by
        have hbl1 : b ∈ a :: t1 := hp.symm.subset (by simp)
        have hal2 : a ∈ b :: t2 := hp.subset (by simp)
        rcases List.mem_cons.mp hbl1 with h | hbt1
        · exact h.symm
        · rcases List.mem_cons.mp hal2 with h | hat2
          · exact h
          · have h1 : PointLE a b := (List.pairwise_cons.mp hs1).1 b hbt1
            have h2 : PointLE b a := (List.pairwise_cons.mp hs2).1 a hat2
            exact hanti a (by simp) b (List.mem_cons_of_mem _ hbt1) h1 h2
      subst hab
      have htails : t1 = t2 :=
        ih hp.cons_inv (List.pairwise_cons.mp hs1).2
          (List.pairwise_cons.mp hs2).2
          (fun x hx y hy => hanti x (List.mem_cons_of_mem _ hx)
            y (List.mem_cons_of_mem _ hy))
      rw [htails]

/-- If no two ranges of `R1` share both endpoints while being different
records, the sorted point list is determined by the multiset of ranges, so
any permutation of the input produces the identical merger output. -/
theorem convert_perm_invariant {R1 R2 : List UsageRange}
    (hinj : ∀ r1 ∈ R1, ∀ r2 ∈ R1, r1.startOffset = r2.startOffset →
      r1.endOffset = r2.endOffset → r1 = r2)
    (hp : R1.Perm R2) :
    convertToDisjointRanges R1 = convertToDisjointRanges R2 := by
  have hsp : (sortedPoints R1).Perm (sortedPoints R2) :=
    (sortedPoints_perm R1).trans
      ((pointsOf_perm hp).trans (sortedPoints_perm R2).symm)
  have hanti : ∀ a ∈ sortedPoints R1, ∀ b ∈ sortedPoints R1,
      PointLE a b → PointLE b a → a = b := by
    intro a ha b hb hab hba
    have ha' : a ∈ pointsOf R1 := (sortedPoints_perm R1).subset ha
    have hb' : b ∈ pointsOf R1 := (sortedPoints_perm R1).subset hb
    obtain ⟨ra, hra, hca⟩ := mem_pointsOf.mp ha'
    obtain ⟨rb, hrb, hcb⟩ := mem_pointsOf.mp hb'
    obtain ⟨hoff, htype, hlen⟩ := comparePoints_tie hab hba
    unfold rangeLength at hlen
    rcases hca with rfl | rfl <;> rcases hcb with rfl | rfl
    · simp only [openPoint_offset, openPoint_range] at hoff hlen
      have hend : ra.endOffset = rb.endOffset := by omega
      rw [hinj ra hra rb hrb hoff hend]
    · simp only [openPoint_type, closePoint_type] at htype
      omega
    · simp only [openPoint_type, closePoint_type] at htype
      omega
    · simp only [closePoint_offset, closePoint_range] at hoff hlen
      have hstart : ra.startOffset = rb.startOffset := by omega
      rw [hinj ra hra rb hrb hstart hoff]
  have heq : sortedPoints R1 = sortedPoints R2 :=
    sorted_perm_eq hsp (sortedPoints_sorted R1) (sortedPoints_sorted R2) hanti
  have hd1 : convertToDisjointRanges R1 =
      (((sweep (sortedPoints R1)).results).reverse).filter
        (fun range => decide (0 < range.«end» - range.start)) := rfl
  have hd2 : convertToDisjointRanges R2 =
      (((sweep (sortedPoints R2)).results).reverse).filter
        (fun range => decide (0 < range.«end» - range.start)) := rfl
  rw [hd1, hd2, heq]

/-- The merger's own output ranges, fed back as usage ranges with hit
count 1 (as the idempotence property of the spec prescribes). -/
def toUsageRange (r : DisjointRange) : UsageRange :=
  { startOffset := r.start, endOffset := r.«end», count := 1 }

/-! ### Claim theorems for the range merger -/

/-- C1 (counterexample): coverage fidelity fails as stated. For the input
`[(0,10,1),(2,5,0)]`, position 3 is contained in the input range `(0,10)`
with hit count 1, yet lies in no output range: the sweep takes the hit
count of the innermost (top-of-stack) range, so the nested zero-hit-count
range `(2,5)` masks the positive outer range. -/
theorem coverage_fidelity_counterexample :
    ¬ (inRanges (convertToDisjointRanges [⟨0, 10, 1⟩, ⟨2, 5, 0⟩]) 3 ↔
       coveredByInput [⟨0, 10, 1⟩, ⟨2, 5, 0⟩] 3) := by decide

/-- C1 (amended): coverage fidelity holds when every input range has a
positive hit count and positive length: a position `p` lies in some output
range iff some input range with `hitCount > 0` contains `p`. (With a
zero-hit-count range nested inside a positive one the equivalence fails,
see the counterexample.) -/
theorem coverage_fidelity (R : List UsageRange)
    (hR : ∀ r ∈ R, 0 < r.count ∧ r.startOffset < r.endOffset) (p : Nat) :
    inRanges (convertToDisjointRanges R) p ↔ coveredByInput R p :=
  convert_covers R hR p

theorem coverage_fidelity_witness :
    (∀ r ∈ [(⟨0, 5, 1⟩ : UsageRange), ⟨4, 9, 2⟩],
        0 < r.count ∧ r.startOffset < r.endOffset) ∧
    (inRanges (convertToDisjointRanges [⟨0, 5, 1⟩, ⟨4, 9, 2⟩]) 7 ↔
       coveredByInput [⟨0, 5, 1⟩, ⟨4, 9, 2⟩] 7) :=
  ⟨by decide, coverage_fidelity [⟨0, 5, 1⟩, ⟨4, 9, 2⟩] (by decide) 7⟩

/-- C2: for every list of usage ranges the merger output is sorted
ascending by `start`, every output range satisfies `start < end`, and any
two output ranges in order satisfy `end < start` of the later one — hence
they neither overlap nor touch (no contiguity). -/
theorem merge_minimality (R : List UsageRange) :
    (convertToDisjointRanges R).Pairwise (fun a b => a.start < b.start) ∧
    (∀ r ∈ convertToDisjointRanges R, r.start < r.«end») ∧
    (convertToDisjointRanges R).Pairwise (fun a b => a.«end» < b.start) := by
  obtain ⟨hsep, hne⟩ := convert_canonical R
  refine ⟨?_, hne, hsep⟩
  refine hsep.imp_of_mem ?_
  intro a b ha _ hab
  have := hne a ha
  omega

/-- C3 (counterexample): the merger is not independent of input order. The
two inputs below are permutations of one another — two identical ranges
`(0,5)` carrying hit counts 0 and 1 — but the comparator does not order
points of equal-endpoint ranges, so the stable sort preserves their input
order and the sweep sees a different top-of-stack hit count: one order
yields `[(0,5)]`, the other `[]`. -/
theorem order_independence_counterexample :
    ([⟨0, 5, 0⟩, ⟨0, 5, 1⟩] : List UsageRange).Perm [⟨0, 5, 1⟩, ⟨0, 5, 0⟩] ∧
    convertToDisjointRanges [⟨0, 5, 0⟩, ⟨0, 5, 1⟩] = [⟨0, 5⟩] ∧
    convertToDisjointRanges [⟨0, 5, 1⟩, ⟨0, 5, 0⟩] = [] := by
  refine ⟨?_, by decide, by decide⟩
  exact List.Perm.swap _ _ _

/-- C3 (amended): the merger output is independent of input order provided
no two input ranges share both `startOffset` and `endOffset` while being
different records (in particular, differing in hit count); under that
proviso the comparator is antisymmetric on the generated points and the
sorted point sequence — hence the output — is determined by the multiset of
inputs, including for fully-nested ranges. -/
theorem order_independence (R1 R2 : List UsageRange)
    (hinj : ∀ r1 ∈ R1, ∀ r2 ∈ R1, r1.startOffset = r2.startOffset →
      r1.endOffset = r2.endOffset → r1 = r2)
    (hp : R1.Perm R2) :
    convertToDisjointRanges R1 = convertToDisjointRanges R2 :=
  convert_perm_invariant hinj hp

theorem order_independence_witness :
    (∀ r1 ∈ [(⟨0, 9, 1⟩ : UsageRange), ⟨2, 5, 0⟩],
       ∀ r2 ∈ [(⟨0, 9, 1⟩ : UsageRange), ⟨2, 5, 0⟩],
       r1.startOffset = r2.startOffset → r1.endOffset = r2.endOffset →
       r1 = r2) ∧
    ([⟨0, 9, 1⟩, ⟨2, 5, 0⟩] : List UsageRange).Perm [⟨2, 5, 0⟩, ⟨0, 9, 1⟩] ∧
    convertToDisjointRanges [⟨0, 9, 1⟩, ⟨2, 5, 0⟩] =
      convertToDisjointRanges [⟨2, 5, 0⟩, ⟨0, 9, 1⟩] :=
  ⟨by decide, List.Perm.swap _ _ _,
    order_independence [⟨0, 9, 1⟩, ⟨2, 5, 0⟩] [⟨2, 5, 0⟩, ⟨0, 9, 1⟩]
      (by decide) (List.Perm.swap _ _ _)⟩

/-- C4: the merger is idempotent — feeding its output back as usage ranges
with hit count 1 reproduces the same output: `merge(merge(R)) = merge(R)`
for every `R`. -/
theorem merge_idempotent (R : List UsageRange) :
    convertToDisjointRanges
        ((convertToDisjointRanges R).map toUsageRange) =
      convertToDisjointRanges R := by
  obtain ⟨hsep1, hne1⟩ := convert_canonical R
  have hpos : ∀ r ∈ (convertToDisjointRanges R).map toUsageRange,
      0 < r.count ∧ r.startOffset < r.endOffset := by
    intro r hr
    obtain ⟨d, hd, rfl⟩ := List.mem_map.mp hr
    exact ⟨by simp [toUsageRange], by simpa [toUsageRange] using hne1 d hd⟩
  obtain ⟨hsep2, hne2⟩ :=
    convert_canonical ((convertToDisjointRanges R).map toUsageRange)
  apply canonical_unique _ _ hsep2 hne2 hsep1 hne1
  intro q
  rw [convert_covers _ hpos q]
  constructor
  · rintro ⟨r, hr, _, hs, he⟩
    obtain ⟨d, hd, rfl⟩ := List.mem_map.mp hr
    exact ⟨d, hd, by simpa [toUsageRange] using hs,
      by simpa [toUsageRange] using he⟩
  · rintro ⟨d, hd, hs, he⟩
    exact ⟨toUsageRange d, List.mem_map_of_mem _ hd, by simp [toUsageRange],
      by simpa [toUsageRange] using hs, by simpa [toUsageRange] using he⟩

/-- C5: the three concrete scenarios of the spec. A nested positive range
is absorbed; adjacent positive ranges merge; an uncovered zero-hit prefix
is dropped. -/
theorem merge_concrete_scenarios :
    convertToDisjointRanges [⟨0, 10, 1⟩, ⟨2, 5, 1⟩] = [⟨0, 10⟩] ∧
    convertToDisjointRanges [⟨0, 5, 1⟩, ⟨5, 10, 1⟩] = [⟨0, 10⟩] ∧
    convertToDisjointRanges [⟨0, 5, 0⟩, ⟨5, 10, 1⟩] = [⟨5, 10⟩] := by
  refine ⟨by decide, by decide, by decide⟩

/-! ### The coverage trackers (`JSCoverage` / `CSSCoverage`)

The JS `Map` is modelled by an insertion-ordered association list:
`set` on an existing key updates the value in place (keeping the key's
position), otherwise appends; iteration order is list order. -/

def mapGet : List (String × String) → String → Option String
  | [], _ => none
  | p :: rest, k => if p.1 = k then some p.2 else mapGet rest k

def mapSet (m : List (String × String)) (k v : String) :
    List (String × String) :=
  if m.any (fun p => p.1 = k) then
    m.map (fun p => if p.1 = k then (k, v) else p)
  else m ++ [(k, v)]

/-- Payload of a `Debugger.scriptParsed` event (the fields used). -/
structure ScriptParsedEvent where
  scriptId : String
  url : String
deriving DecidableEq, Repr

/-- A `Protocol.Profiler.FunctionCoverage` (the fields used): its list of
coverage ranges. -/
structure FunctionCoverage where
  ranges : List UsageRange
deriving DecidableEq, Repr

/-- A `Protocol.Profiler.ScriptCoverage` entry of the
`Profiler.takePreciseCoverage` response. -/
structure ScriptCoverage where
  scriptId : String
  functions : List FunctionCoverage
deriving DecidableEq, Repr

/-- A `JSCoverageEntry` of the result array; `rawScriptCoverage` is present
exactly when `includeRawScriptCoverage` was configured. -/
structure JSCoverageEntry where
  url : String
  text : String
  ranges : List DisjointRange
  rawScriptCoverage : Option ScriptCoverage
deriving DecidableEq, Repr

/-- The mutable fields of the `JSCoverage` class. `subscriptions` records
whether the event subscriptions (`DisposableStack`) are installed. -/
structure JSCoverageState where
  enabled : Bool
  scriptURLs : List (String × String)
  scriptSources : List (String × String)
  subscriptions : Bool
  resetOnNavigation : Bool
  reportAnonymousScripts : Bool
  includeRawScriptCoverage : Bool
deriving DecidableEq, Repr

/-- Options object `JSCoverageOptions`, with the caller-side defaults already applied. -/
structure JSCoverageOptions where
  resetOnNavigation : Bool
  reportAnonymousScripts : Bool
  includeRawScriptCoverage : Bool
  useBlockCoverage : Bool
deriving DecidableEq, Repr

/-- Modelled from the spec: `PuppeteerURL.isPuppeteerURL` lives in the
external `common/util` module (not part of this core) and recognizes the
automation tooling's own injected-script marker convention, a dedicated
nonempty URL scheme prefix; an empty or ordinary URL does not match it. -/
def isPuppeteerURL (url : String) : Bool :=
  url.startsWith "pptr:"

/-- Model of `JSCoverage.start`: fails on an already-enabled session (the `assert`
throws before any mutation); otherwise stores the configuration, clears
both caches, installs the subscriptions and becomes enabled.
(`useBlockCoverage` is only forwarded to the `Profiler.startPreciseCoverage`
command and is not part of the session state.) -/
def JSCoverage.start (options : JSCoverageOptions) (st : JSCoverageState) :
    Except String Unit × JSCoverageState :=
  if st.enabled then (Except.error "JSCoverage is already enabled", st)
  else
    (Except.ok (),
      { enabled := true
        scriptURLs := []
        scriptSources := []
        subscriptions := true
        resetOnNavigation := options.resetOnNavigation
        reportAnonymousScripts := options.reportAnonymousScripts
        includeRawScriptCoverage := options.includeRawScriptCoverage })

/-- Model of `JSCoverage.#onExecutionContextsCleared`: with `resetOnNavigation`
clear both caches, else do nothing. -/
def JSCoverage.onExecutionContextsCleared (st : JSCoverageState) :
    JSCoverageState :=
  if !st.resetOnNavigation then st
  else { st with scriptURLs := [], scriptSources := [] }

/-- Model of `JSCoverage.#onScriptParsed`: skip tooling-injected scripts; skip
anonymous scripts unless configured; otherwise fetch the source
(`fetchResult` is the outcome of the `Debugger.getScriptSource` round trip,
`none` on failure) and cache url and source keyed by the script id. -/
def JSCoverage.onScriptParsed (event : ScriptParsedEvent)
    (fetchResult : Option String) (st : JSCoverageState) : JSCoverageState :=
  if isPuppeteerURL event.url then st
  else if event.url = "" && !st.reportAnonymousScripts then st
  else
    match fetchResult with
    | some scriptSource =>
      { st with
        scriptURLs := mapSet st.scriptURLs event.scriptId event.url
        scriptSources := mapSet st.scriptSources event.scriptId scriptSource }
    | none => st

/-- The body of the result loop of `JSCoverage.stop` for one profiler
entry: look up the cached url (synthesizing a `debugger://VM<id>` url for
anonymous scripts when configured — the JS falsiness test `!url` accepts
both a missing and an empty url) and the cached text; skip the entry if
either is undefined. -/
def JSCoverage.entryFor (st : JSCoverageState) (entry : ScriptCoverage) :
    Option JSCoverageEntry :=
  let url0 := mapGet st.scriptURLs entry.scriptId
  let url := if (url0 = none ∨ url0 = some "") ∧ st.reportAnonymousScripts
    then some ("debugger://VM" ++ entry.scriptId) else url0
  let text := mapGet st.scriptSources entry.scriptId
  match text, url with
  | some t, some u =>
    let flattenRanges := entry.functions.flatMap (fun f => f.ranges)
    some { url := u
           text := t
           ranges := convertToDisjointRanges flattenRanges
           rawScriptCoverage :=
             if st.includeRawScriptCoverage then some entry else none }
  | _, _ => none

/-- The result loop of `JSCoverage.stop` over the profiler response. -/
def JSCoverage.stopLoop (st : JSCoverageState)
    (profile : List ScriptCoverage) : List JSCoverageEntry :=
  match profile with
  | [] => []
  | entry :: rest =>
    match JSCoverage.entryFor st entry with
    | some c => c :: JSCoverage.stopLoop st rest
    | none => JSCoverage.stopLoop st rest

/-- Model of `JSCoverage.stop`: fails on a non-enabled session (the `assert` throws
before any mutation); otherwise leaves the Enabled state, disposes the
subscriptions, and builds one entry per `Profiler.takePreciseCoverage`
response entry whose url and text are cached. -/
def JSCoverage.stop (profile : List ScriptCoverage)
    (st : JSCoverageState) :
    Except String (List JSCoverageEntry) × JSCoverageState :=
  if !st.enabled then (Except.error "JSCoverage is not enabled", st)
  else
    let st' := { st with enabled := false, subscriptions := false }
    (Except.ok (JSCoverage.stopLoop st' profile), st')

/-- A result entry of `CSSCoverage.stop` (`CoverageEntry`). -/
structure CoverageEntry where
  url : String
  text : String
  ranges : List DisjointRange
deriving DecidableEq, Repr

/-- The mutable fields of the `CSSCoverage` class. -/
structure CSSCoverageState where
  enabled : Bool
  stylesheetURLs : List (String × String)
  stylesheetSources : List (String × String)
  eventListeners : Bool
  resetOnNavigation : Bool
deriving DecidableEq, Repr

/-- Header of a `CSS.styleSheetAdded` event (the fields used). -/
structure StyleSheetHeader where
  styleSheetId : String
  sourceURL : String
deriving DecidableEq, Repr

/-- One entry of the `CSS.stopRuleUsageTracking` response's `ruleUsage`. -/
structure RuleUsage where
  styleSheetId : String
  startOffset : Nat
  endOffset : Nat
  used : Bool
deriving DecidableEq, Repr

/-- Model of `CSSCoverage.start`: fails on an already-enabled session; otherwise
stores the configuration, clears both caches, installs the listeners and
becomes enabled. -/
def CSSCoverage.start (resetOnNavigation : Bool) (st : CSSCoverageState) :
    Except String Unit × CSSCoverageState :=
  if st.enabled then (Except.error "CSSCoverage is already enabled", st)
  else
    (Except.ok (),
      { enabled := true
        stylesheetURLs := []
        stylesheetSources := []
        eventListeners := true
        resetOnNavigation := resetOnNavigation })

/-- Model of `CSSCoverage.#onExecutionContextsCleared`. -/
def CSSCoverage.onExecutionContextsCleared (st : CSSCoverageState) :
    CSSCoverageState :=
  if !st.resetOnNavigation then st
  else { st with stylesheetURLs := [], stylesheetSources := [] }

/-- Model of `CSSCoverage.#onStyleSheet`: ignore stylesheets without a `sourceURL`;
otherwise fetch the text (`fetchResult` is the `CSS.getStyleSheetText`
outcome) and cache url and text keyed by the stylesheet id. -/
def CSSCoverage.onStyleSheet (header : StyleSheetHeader)
    (fetchResult : Option String) (st : CSSCoverageState) :
    CSSCoverageState :=
  if header.sourceURL = "" then st
  else
    match fetchResult with
    | some text =>
      { st with
        stylesheetURLs := mapSet st.stylesheetURLs header.styleSheetId
          header.sourceURL
        stylesheetSources := mapSet st.stylesheetSources header.styleSheetId
          text }
    | none => st

/-- The usage-aggregation map of `CSSCoverage.stop`, keyed by stylesheet id
(a JS `Map` of growing arrays; first-occurrence key order, appends at the
end of the keyed array). -/
def mapAppendRange (m : List (String × List UsageRange)) (k : String)
    (v : UsageRange) : List (String × List UsageRange) :=
  if m.any (fun p => p.1 = k) then
    m.map (fun p => if p.1 = k then (p.1, p.2 ++ [v]) else p)
  else m ++ [(k, [v])]

def mapGetRanges : List (String × List UsageRange) → String →
    Option (List UsageRange)
  | [], _ => none
  | p :: rest, k => if p.1 = k then some p.2 else mapGetRanges rest k

/-- The `// aggregate by styleSheetId` loop: each rule-usage entry becomes a usage
range with count 1 when used, 0 otherwise. -/
def buildCoverageMap (ruleUsage : List RuleUsage) :
    List (String × List UsageRange) :=
  ruleUsage.foldl
    (fun m entry =>
      mapAppendRange m entry.styleSheetId
        { startOffset := entry.startOffset
          endOffset := entry.endOffset
          count := if entry.used then 1 else 0 })
    []

/-- The result loop of `CSSCoverage.stop` over the cache keys (iteration
order of `stylesheetURLs`); the two `assert`s about missing url/text throw
out of the loop. -/
def CSSCoverage.stopLoop (st : CSSCoverageState)
    (covMap : List (String × List UsageRange)) (keys : List String) :
    Except String (List CoverageEntry) :=
  match keys with
  | [] => Except.ok []
  | styleSheetId :: rest =>
    match mapGet st.stylesheetURLs styleSheetId with
    | none => Except.error
        ("Stylesheet URL is undefined (styleSheetId=" ++ styleSheetId ++ ")")
    | some url =>
      match mapGet st.stylesheetSources styleSheetId with
      | none => Except.error
          ("Stylesheet text is undefined (styleSheetId=" ++ styleSheetId
            ++ ")")
      | some text =>
        let ranges := convertToDisjointRanges
          ((mapGetRanges covMap styleSheetId).getD [])
        (CSSCoverage.stopLoop st covMap rest).map
          (fun l => { url := url, text := text, ranges := ranges } :: l)

/-- Model of `CSSCoverage.stop`: fails on a non-enabled session; otherwise leaves
the Enabled state, disposes the listeners, aggregates the
`CSS.stopRuleUsageTracking` response by stylesheet id and yields one entry
per cached stylesheet, in cache-iteration order, with an empty usage list
(`|| []`) for cached stylesheets the target reported nothing about. -/
def CSSCoverage.stop (ruleUsage : List RuleUsage) (st : CSSCoverageState) :
    Except String (List CoverageEntry) × CSSCoverageState :=
  if !st.enabled then (Except.error "CSSCoverage is not enabled", st)
  else
    let st' := { st with enabled := false, eventListeners := false }
    let covMap := buildCoverageMap ruleUsage
    (CSSCoverage.stopLoop st' covMap (st'.stylesheetURLs.map (fun p => p.1)),
      st')

/-! ### Map lemmas -/

theorem mapSet_cons_ne {a : String × String} {t : List (String × String)}
    {k v : String} (hak : a.1 ≠ k) :
    mapSet (a :: t) k v = a :: mapSet t k v := by
  by_cases ht : t.any (fun p => p.1 = k) <;>
    simp [mapSet, List.any_cons, hak, ht]

theorem mapGet_mapSet_self :
    ∀ (m : List (String × String)) (k v : String),
    mapGet (mapSet m k v) k = some v := by
  intro m k v
  induction m with
  | nil => simp [mapGet, mapSet]
  | cons a t ih =>
    by_cases hak : a.1 = k
    · have hany : (a :: t).any (fun p => p.1 = k) = true := by
        simp [List.any_cons, hak]
      simp [mapSet, hany, hak, mapGet]
    · rw [mapSet_cons_ne hak]
      simp only [mapGet, if_neg hak]
      exact ih

theorem mapGet_of_nodup :
    ∀ {m : List (String × String)}, (m.map Prod.fst).Nodup →
    ∀ {p : String × String}, p ∈ m → mapGet m p.1 = some p.2 := by
  intro m
  induction m with
  | nil => intro _ p hp; simp at hp
  | cons a t ih =>
    intro hnd p hp
    have hnd' : a.1 ∉ t.map Prod.fst ∧ (t.map Prod.fst).Nodup := by
      rw [List.map_cons, List.nodup_cons] at hnd
      exact hnd
    rcases List.mem_cons.mp hp with rfl | hp'
    · simp [mapGet]
    · have hne : a.1 ≠ p.1 := by
        intro hcon
        exact hnd'.1 (hcon ▸ List.mem_map_of_mem Prod.fst hp')
      rw [mapGet, if_neg hne]
      exact ih hnd'.2 hp'

/-! ### Claim theorems for the tracker lifecycle -/

/-- C6: `start` on an Enabled session fails with the already-enabled error
and `stop` on an Idle session fails with the not-enabled error, for both
trackers; in every failing case the post-state is the unchanged input
state (the `assert` throws before any mutation). -/
theorem lifecycle_guards (optionsJ : JSCoverageOptions)
    (profile : List ScriptCoverage) (ruleUsage : List RuleUsage)
    (resetC : Bool) (st1 st2 : JSCoverageState) (st3 st4 : CSSCoverageState)
    (h1 : st1.enabled = true) (h2 : st2.enabled = false)
    (h3 : st3.enabled = true) (h4 : st4.enabled = false) :
    JSCoverage.start optionsJ st1 =
      (Except.error "JSCoverage is already enabled", st1) ∧
    JSCoverage.stop profile st2 =
      (Except.error "JSCoverage is not enabled", st2) ∧
    CSSCoverage.start resetC st3 =
      (Except.error "CSSCoverage is already enabled", st3) ∧
    CSSCoverage.stop ruleUsage st4 =
      (Except.error "CSSCoverage is not enabled", st4) := by
  refine ⟨?_, ?_, ?_, ?_⟩ <;>
    simp [JSCoverage.start, JSCoverage.stop, CSSCoverage.start,
      CSSCoverage.stop, h1, h2, h3, h4]

theorem lifecycle_guards_witness :
    ((⟨true, [], [], true, true, false, false⟩ :
        JSCoverageState).enabled = true) ∧
    ((⟨false, [], [], false, false, false, false⟩ :
        JSCoverageState).enabled = false) ∧
    ((⟨true, [], [], true, true⟩ : CSSCoverageState).enabled = true) ∧
    ((⟨false, [], [], false, false⟩ : CSSCoverageState).enabled = false) ∧
    (JSCoverage.start ⟨true, false, false, true⟩
        ⟨true, [], [], true, true, false, false⟩ =
      (Except.error "JSCoverage is already enabled",
        ⟨true, [], [], true, true, false, false⟩) ∧
    JSCoverage.stop [] ⟨false, [], [], false, false, false, false⟩ =
      (Except.error "JSCoverage is not enabled",
        ⟨false, [], [], false, false, false, false⟩) ∧
    CSSCoverage.start true ⟨true, [], [], true, true⟩ =
      (Except.error "CSSCoverage is already enabled",
        ⟨true, [], [], true, true⟩) ∧
    CSSCoverage.stop [] ⟨false, [], [], false, false⟩ =
      (Except.error "CSSCoverage is not enabled",
        ⟨false, [], [], false, false⟩)) :=
  ⟨rfl, rfl, rfl, rfl,
    lifecycle_guards ⟨true, false, false, true⟩ [] [] true
      ⟨true, [], [], true, true, false, false⟩
      ⟨false, [], [], false, false, false, false⟩
      ⟨true, [], [], true, true⟩
      ⟨false, [], [], false, false⟩ rfl rfl rfl rfl⟩

/-- C7: for a script-registration event with an empty URL: with
`reportAnonymousScripts = false` the handler leaves the state (and so the
cache) unchanged, and a profiler entry whose script id was never cached
yields no result entry; with `reportAnonymousScripts = true` the handler
caches the script under its id and the stop loop reports it with the
synthesized URL `"debugger://VM" ++ scriptId`, which contains the id. -/
theorem anonymous_script_filtering (e : ScriptParsedEvent)
    (fetchResult : Option String) (st stT : JSCoverageState) (src : String)
    (fs : List FunctionCoverage)
    (hurl : e.url = "")
    (hoff : st.reportAnonymousScripts = false)
    (hon : stT.reportAnonymousScripts = true) :
    (JSCoverage.onScriptParsed e fetchResult st = st) ∧
    (∀ entry : ScriptCoverage, mapGet st.scriptURLs entry.scriptId = none →
      JSCoverage.entryFor st entry = none) ∧
    ((JSCoverage.entryFor (JSCoverage.onScriptParsed e (some src) stT)
        { scriptId := e.scriptId, functions := fs }).map
          (fun c => c.url) = some ("debugger://VM" ++ e.scriptId)) := by
  have hpup : isPuppeteerURL e.url = false := by
    rw [hurl]
    decide
  refine ⟨?_, ?_, ?_⟩
  · unfold JSCoverage.onScriptParsed
    rw [if_neg (by simp [hpup]), if_pos (by simp [hurl, hoff])]
  · intro entry hnone
    unfold JSCoverage.entryFor
    simp only [hnone, hoff]
    simp
  · have hstep : JSCoverage.onScriptParsed e (some src) stT =
        { stT with
          scriptURLs := mapSet stT.scriptURLs e.scriptId e.url
          scriptSources := mapSet stT.scriptSources e.scriptId src } := by
      unfold JSCoverage.onScriptParsed
      rw [if_neg (by simp [hpup]), if_neg (by simp [hon])]
    rw [hstep]
    unfold JSCoverage.entryFor
    simp only [mapGet_mapSet_self, hurl, hon]
    simp

theorem anonymous_script_filtering_witness :
    ((⟨"7", ""⟩ : ScriptParsedEvent).url = "") ∧
    ((⟨false, [], [], false, true, false, false⟩ :
        JSCoverageState).reportAnonymousScripts = false) ∧
    ((⟨true, [], [], true, true, true, false⟩ :
        JSCoverageState).reportAnonymousScripts = true) ∧
    ((JSCoverage.onScriptParsed ⟨"7", ""⟩ (some "x")
        ⟨false, [], [], false, true, false, false⟩ =
      ⟨false, [], [], false, true, false, false⟩) ∧
    (∀ entry : ScriptCoverage,
      mapGet (⟨false, [], [], false, true, false, false⟩ :
        JSCoverageState).scriptURLs entry.scriptId = none →
      JSCoverage.entryFor
        ⟨false, [], [], false, true, false, false⟩ entry = none) ∧
    ((JSCoverage.entryFor
        (JSCoverage.onScriptParsed ⟨"7", ""⟩ (some "x")
          ⟨true, [], [], true, true, true, false⟩)
        { scriptId := "7", functions := [] }).map
          (fun c => c.url) = some ("debugger://VM" ++ "7"))) :=
  ⟨rfl, rfl, rfl,
    anonymous_script_filtering ⟨"7", ""⟩ (some "x")
      ⟨false, [], [], false, true, false, false⟩
      ⟨true, [], [], true, true, true, false⟩ "x" [] rfl rfl rfl⟩

/-! ### Ordering of the stop results -/

theorem jsStopLoop_eq_filterMap (st : JSCoverageState)
    (profile : List ScriptCoverage) :
    JSCoverage.stopLoop st profile =
      profile.filterMap (JSCoverage.entryFor st) := by
  induction profile with
  | nil => rfl
  | cons entry rest ih =>
    simp only [JSCoverage.stopLoop]
    cases h : JSCoverage.entryFor st entry <;>
      simp [List.filterMap_cons, h, ih]

theorem cssStopLoop_spec (st : CSSCoverageState)
    (covMap : List (String × List UsageRange)) :
    ∀ (pairs : List (String × String)),
    (∀ p ∈ pairs, mapGet st.stylesheetURLs p.1 = some p.2) →
    (∀ p ∈ pairs, (mapGet st.stylesheetSources p.1).isSome = true) →
    ∃ l, CSSCoverage.stopLoop st covMap (pairs.map (fun p => p.1)) =
        Except.ok l ∧
      List.Forall₂ (fun (e : CoverageEntry) (p : String × String) =>
        e.url = p.2 ∧ e.ranges = convertToDisjointRanges
          ((mapGetRanges covMap p.1).getD [])) l pairs := by
  intro pairs
  induction pairs with
  | nil =>
    intro _ _
    exact ⟨[], rfl, List.Forall₂.nil⟩
  | cons p rest ih =>
    intro hu hs
    obtain ⟨l, hok, hfa⟩ :=
      ih (fun p' hp' => hu p' (List.mem_cons_of_mem _ hp'))
        (fun p' hp' => hs p' (List.mem_cons_of_mem _ hp'))
    have hu0 : mapGet st.stylesheetURLs p.1 = some p.2 := hu p (by simp)
    obtain ⟨s, hs0⟩ := Option.isSome_iff_exists.mp (hs p (by simp))
    refine ⟨CoverageEntry.mk p.2 s (convertToDisjointRanges
        ((mapGetRanges covMap p.1).getD [])) :: l, ?_, ?_⟩
    · simp only [List.map_cons, CSSCoverage.stopLoop, hu0, hs0, hok]
      rfl
    · exact List.Forall₂.cons ⟨rfl, rfl⟩ hfa

theorem forall₂_map_eq {α β γ : Type} {R : α → β → Prop} {f : α → γ}
    {g : β → γ} :
    ∀ {l1 : List α} {l2 : List β}, List.Forall₂ R l1 l2 →
    (∀ a b, R a b → f a = g b) → l1.map f = l2.map g := by
  intro l1 l2 h hfg
  induction h with
  | nil => rfl
  | cons h1 _ ih => simp [hfg _ _ h1, ih]

theorem forall₂_mem_right {α β : Type} {R : α → β → Prop} :
    ∀ {l1 : List α} {l2 : List β}, List.Forall₂ R l1 l2 →
    ∀ {b : β}, b ∈ l2 → ∃ a ∈ l1, R a b := by
  intro l1 l2 h
  induction h with
  | nil => intro b hb; simp at hb
  | cons h1 _ ih =>
    intro b hb
    rcases List.mem_cons.mp hb with rfl | hb'
    · exact ⟨_, by simp, h1⟩
    · obtain ⟨a, ha, har⟩ := ih hb'
      exact ⟨a, List.mem_cons_of_mem _ ha, har⟩

/-- C8 (counterexample): `stopJSCoverage` does not resolve in
cache-iteration order. With scripts "1" (url "A") then "2" (url "B")
cached in that insertion order, a profiler response listing "2" before "1"
produces the entries in profiler order `["B", "A"]`, not in cache order
`["A", "B"]`. -/
theorem stop_ordering_counterexample :
    ((JSCoverage.stop [⟨"2", []⟩, ⟨"1", []⟩]
        ⟨true, [("1", "A"), ("2", "B")], [("1", "ta"), ("2", "tb")],
          true, true, false, false⟩).1.map
        (fun l => l.map (fun e => e.url)) = Except.ok ["B", "A"]) ∧
    ((⟨true, [("1", "A"), ("2", "B")], [("1", "ta"), ("2", "tb")],
        true, true, false, false⟩ :
      JSCoverageState).scriptURLs.map (fun p => p.2) = ["A", "B"]) ∧
    ((["B", "A"] : List String) ≠ ["A", "B"]) := by
  refine ⟨by rfl, by rfl, by decide⟩

/-- C8 (amended): `stopCSSCoverage` resolves to entries in cache-iteration
order (insertion order of each stylesheet's first successful fetch), but
`stopJSCoverage` resolves to entries in the order of the
`Profiler.takePreciseCoverage` response (one entry per response entry whose
url and text are cached), not in cache order. -/
theorem stop_ordering (st : JSCoverageState) (profile : List ScriptCoverage)
    (stc : CSSCoverageState) (ruleUsage : List RuleUsage)
    (h1 : st.enabled = true) (h2 : stc.enabled = true)
    (hnd : (stc.stylesheetURLs.map Prod.fst).Nodup)
    (hsrc : ∀ p ∈ stc.stylesheetURLs,
      (mapGet stc.stylesheetSources p.1).isSome = true) :
    (JSCoverage.stop profile st).1 =
      Except.ok (profile.filterMap (JSCoverage.entryFor
        { st with enabled := false, subscriptions := false })) ∧
    ∃ l, (CSSCoverage.stop ruleUsage stc).1 = Except.ok l ∧
      l.map (fun e => e.url) =
        stc.stylesheetURLs.map (fun p => p.2) := by
  constructor
  · rw [JSCoverage.stop, if_neg (by simp [h1])]
    simp [jsStopLoop_eq_filterMap]
  · obtain ⟨l, hok, hfa⟩ := cssStopLoop_spec
      { stc with enabled := false, eventListeners := false }
      (buildCoverageMap ruleUsage) stc.stylesheetURLs
      (fun p hp => mapGet_of_nodup hnd hp) hsrc
    refine ⟨l, ?_, ?_⟩
    · rw [CSSCoverage.stop, if_neg (by simp [h2])]
      simpa using hok
    · exact forall₂_map_eq hfa (fun a b hab => hab.1)

theorem stop_ordering_witness :
    ((⟨true, [], [], true, true, false, false⟩ :
        JSCoverageState).enabled = true) ∧
    ((⟨true, [("s1", "u1")], [("s1", "t1")], true, true⟩ :
        CSSCoverageState).enabled = true) ∧
    (((⟨true, [("s1", "u1")], [("s1", "t1")], true, true⟩ :
        CSSCoverageState).stylesheetURLs.map Prod.fst).Nodup) ∧
    (∀ p ∈ (⟨true, [("s1", "u1")], [("s1", "t1")], true, true⟩ :
        CSSCoverageState).stylesheetURLs,
      (mapGet (⟨true, [("s1", "u1")], [("s1", "t1")], true, true⟩ :
        CSSCoverageState).stylesheetSources p.1).isSome = true) ∧
    ((JSCoverage.stop [] ⟨true, [], [], true, true, false, false⟩).1 =
      Except.ok (([] : List ScriptCoverage).filterMap (JSCoverage.entryFor
        { (⟨true, [], [], true, true, false, false⟩ : JSCoverageState) with
          enabled := false, subscriptions := false })) ∧
    ∃ l, (CSSCoverage.stop []
        ⟨true, [("s1", "u1")], [("s1", "t1")], true, true⟩).1 =
        Except.ok l ∧
      l.map (fun e => e.url) =
        (⟨true, [("s1", "u1")], [("s1", "t1")], true, true⟩ :
          CSSCoverageState).stylesheetURLs.map (fun p => p.2)) :=
  ⟨rfl, rfl, by decide, by decide,
    stop_ordering ⟨true, [], [], true, true, false, false⟩ []
      ⟨true, [("s1", "u1")], [("s1", "t1")], true, true⟩ []
      rfl rfl (by decide) (by decide)⟩

/-! ### Context reset and stop asymmetry -/

/-- C9: on a context-reset event, with `resetOnNavigation = true` the
handlers clear exactly the URL and source maps (the record update shows
`enabled`, the configuration flags and the subscriptions unchanged); with
`resetOnNavigation = false` they change nothing at all. -/
theorem context_reset (st1 st2 : JSCoverageState)
    (st3 st4 : CSSCoverageState)
    (h1e : st1.enabled = true) (h1 : st1.resetOnNavigation = true)
    (h2 : st2.resetOnNavigation = false)
    (h3e : st3.enabled = true) (h3 : st3.resetOnNavigation = true)
    (h4 : st4.resetOnNavigation = false) :
    JSCoverage.onExecutionContextsCleared st1 =
      { st1 with scriptURLs := [], scriptSources := [] } ∧
    JSCoverage.onExecutionContextsCleared st2 = st2 ∧
    CSSCoverage.onExecutionContextsCleared st3 =
      { st3 with stylesheetURLs := [], stylesheetSources := [] } ∧
    CSSCoverage.onExecutionContextsCleared st4 = st4 := by
  refine ⟨?_, ?_, ?_, ?_⟩ <;>
    simp [JSCoverage.onExecutionContextsCleared,
      CSSCoverage.onExecutionContextsCleared, h1, h2, h3, h4]

theorem context_reset_witness :
    ((⟨true, [("1", "A")], [("1", "t")], true, true, false, false⟩ :
        JSCoverageState).enabled = true) ∧
    ((⟨true, [("1", "A")], [("1", "t")], true, true, false, false⟩ :
        JSCoverageState).resetOnNavigation = true) ∧
    ((⟨true, [], [], true, false, true, true⟩ :
        JSCoverageState).resetOnNavigation = false) ∧
    ((⟨true, [("2", "B")], [("2", "u")], true, true⟩ :
        CSSCoverageState).enabled = true) ∧
    ((⟨true, [("2", "B")], [("2", "u")], true, true⟩ :
        CSSCoverageState).resetOnNavigation = true) ∧
    ((⟨true, [], [], true, false⟩ :
        CSSCoverageState).resetOnNavigation = false) ∧
    (JSCoverage.onExecutionContextsCleared
        ⟨true, [("1", "A")], [("1", "t")], true, true, false, false⟩ =
      { (⟨true, [("1", "A")], [("1", "t")], true, true, false, false⟩ :
          JSCoverageState) with scriptURLs := [], scriptSources := [] } ∧
    JSCoverage.onExecutionContextsCleared
        ⟨true, [], [], true, false, true, true⟩ =
      ⟨true, [], [], true, false, true, true⟩ ∧
    CSSCoverage.onExecutionContextsCleared
        ⟨true, [("2", "B")], [("2", "u")], true, true⟩ =
      { (⟨true, [("2", "B")], [("2", "u")], true, true⟩ :
          CSSCoverageState) with
        stylesheetURLs := [], stylesheetSources := [] } ∧
    CSSCoverage.onExecutionContextsCleared ⟨true, [], [], true, false⟩ =
      ⟨true, [], [], true, false⟩) :=
  ⟨rfl, rfl, rfl, rfl, rfl, rfl,
    context_reset
      ⟨true, [("1", "A")], [("1", "t")], true, true, false, false⟩
      ⟨true, [], [], true, false, true, true⟩
      ⟨true, [("2", "B")], [("2", "u")], true, true⟩
      ⟨true, [], [], true, false⟩ rfl rfl rfl rfl rfl rfl⟩

theorem mapGetRanges_eq_none_iff {m : List (String × List UsageRange)}
    {k : String} : mapGetRanges m k = none ↔ ∀ p ∈ m, p.1 ≠ k := by
  induction m with
  | nil => simp [mapGetRanges]
  | cons a t ih =>
    rw [mapGetRanges]
    by_cases hak : a.1 = k
    · simp [hak]
    · simp [hak, ih]

theorem mapAppendRange_keys {m : List (String × List UsageRange)}
    {k k' : String} {v : UsageRange}
    (hall : ∀ p ∈ m, p.1 ≠ k) (hne : k' ≠ k) :
    ∀ p ∈ mapAppendRange m k' v, p.1 ≠ k := by
  intro p hp
  rw [mapAppendRange] at hp
  by_cases hany : m.any (fun q => q.1 = k')
  · rw [if_pos hany] at hp
    obtain ⟨q, hq, rfl⟩ := List.mem_map.mp hp
    by_cases hqk : q.1 = k'
    · simp only [if_pos hqk]
      exact hall q hq
    · simp only [if_neg hqk]
      exact hall q hq
  · rw [if_neg hany] at hp
    rcases List.mem_append.mp hp with hp' | hp'
    · exact hall p hp'
    · have : p = (k', [v]) := by simpa using hp'
      rw [this]
      exact hne

theorem buildCoverageMap_aux {k : String} :
    ∀ (ruleUsage : List RuleUsage) (m : List (String × List UsageRange)),
    (∀ u ∈ ruleUsage, u.styleSheetId ≠ k) →
    (∀ p ∈ m, p.1 ≠ k) →
    ∀ p ∈ ruleUsage.foldl
      (fun m entry =>
        mapAppendRange m entry.styleSheetId
          { startOffset := entry.startOffset
            endOffset := entry.endOffset
            count := if entry.used then 1 else 0 })
      m, p.1 ≠ k := by
  intro ruleUsage
  induction ruleUsage with
  | nil => intro m _ hm; exact hm
  | cons u rest ih =>
    intro m hu hm
    rw [List.foldl_cons]
    exact ih _ (fun u' hu' => hu u' (List.mem_cons_of_mem _ hu'))
      (mapAppendRange_keys hm (hu u (by simp)))

/-- If the rule-usage response mentions a stylesheet id nowhere, the
aggregation map has no entry for it. -/
theorem buildCoverageMap_none {k : String} {ruleUsage : List RuleUsage}
    (h : ∀ u ∈ ruleUsage, u.styleSheetId ≠ k) :
    mapGetRanges (buildCoverageMap ruleUsage) k = none :=
  mapGetRanges_eq_none_iff.mpr
    (buildCoverageMap_aux ruleUsage [] h (by simp))

/-- C10: the two stop paths treat resources without usage data
asymmetrically. A cached stylesheet the rule-usage response never mentions
still yields a result entry, with an empty ranges list; a JS result entry
exists only for profiler-snapshot entries (every result entry arises from
some snapshot entry), and a snapshot entry whose script id has no cached
source yields no entry. -/
theorem stop_asymmetry (stc : CSSCoverageState) (ruleUsage : List RuleUsage)
    (p : String × String) (stj : JSCoverageState)
    (profile : List ScriptCoverage)
    (hc : stc.enabled = true)
    (hnd : (stc.stylesheetURLs.map Prod.fst).Nodup)
    (hsrc : ∀ p' ∈ stc.stylesheetURLs,
      (mapGet stc.stylesheetSources p'.1).isSome = true)
    (hp : p ∈ stc.stylesheetURLs)
    (hnou : ∀ u ∈ ruleUsage, u.styleSheetId ≠ p.1)
    (hj : stj.enabled = true) :
    (∃ l, (CSSCoverage.stop ruleUsage stc).1 = Except.ok l ∧
      ∃ e ∈ l, e.url = p.2 ∧ e.ranges = []) ∧
    (∀ res c, (JSCoverage.stop profile stj).1 = Except.ok res → c ∈ res →
      ∃ entry ∈ profile,
        JSCoverage.entryFor
          { stj with enabled := false, subscriptions := false } entry =
          some c) ∧
    (∀ entry : ScriptCoverage,
      mapGet stj.scriptSources entry.scriptId = none →
      JSCoverage.entryFor
        { stj with enabled := false, subscriptions := false } entry =
        none) := by
  refine ⟨?_, ?_, ?_⟩
  · obtain ⟨l, hok, hfa⟩ := cssStopLoop_spec
      { stc with enabled := false, eventListeners := false }
      (buildCoverageMap ruleUsage) stc.stylesheetURLs
      (fun p' hp' => mapGet_of_nodup hnd hp') hsrc
    refine ⟨l, ?_, ?_⟩
    · rw [CSSCoverage.stop, if_neg (by simp [hc])]
      simpa using hok
    · obtain ⟨e, he, hurl, hranges⟩ := forall₂_mem_right hfa hp
      refine ⟨e, he, hurl, ?_⟩
      rw [hranges, buildCoverageMap_none hnou]
      rfl
  · intro res c heq hmem
    rw [JSCoverage.stop, if_neg (by simp [hj])] at heq
    simp only [Except.ok.injEq] at heq
    rw [← heq, jsStopLoop_eq_filterMap] at hmem
    exact List.mem_filterMap.mp hmem
  · intro entry hnone
    unfold JSCoverage.entryFor
    simp only [hnone]

theorem stop_asymmetry_witness :
    ((⟨true, [("s1", "u1")], [("s1", "t1")], true, true⟩ :
        CSSCoverageState).enabled = true) ∧
    (((⟨true, [("s1", "u1")], [("s1", "t1")], true, true⟩ :
        CSSCoverageState).stylesheetURLs.map Prod.fst).Nodup) ∧
    (∀ p' ∈ (⟨true, [("s1", "u1")], [("s1", "t1")], true, true⟩ :
        CSSCoverageState).stylesheetURLs,
      (mapGet (⟨true, [("s1", "u1")], [("s1", "t1")], true, true⟩ :
        CSSCoverageState).stylesheetSources p'.1).isSome = true) ∧
    ((("s1", "u1") : String × String) ∈
      (⟨true, [("s1", "u1")], [("s1", "t1")], true, true⟩ :
        CSSCoverageState).stylesheetURLs) ∧
    (∀ u ∈ ([] : List RuleUsage), u.styleSheetId ≠ ("s1", "u1").1) ∧
    ((⟨true, [], [], true, true, false, false⟩ :
        JSCoverageState).enabled = true) ∧
    ((∃ l, (CSSCoverage.stop []
        ⟨true, [("s1", "u1")], [("s1", "t1")], true, true⟩).1 =
        Except.ok l ∧
      ∃ e ∈ l, e.url = ("s1", "u1").2 ∧ e.ranges = []) ∧
    (∀ res c, (JSCoverage.stop []
        ⟨true, [], [], true, true, false, false⟩).1 = Except.ok res →
      c ∈ res →
      ∃ entry ∈ ([] : List ScriptCoverage),
        JSCoverage.entryFor
          { (⟨true, [], [], true, true, false, false⟩ : JSCoverageState)
            with enabled := false, subscriptions := false } entry =
          some c) ∧
    (∀ entry : ScriptCoverage,
      mapGet (⟨true, [], [], true, true, false, false⟩ :
          JSCoverageState).scriptSources entry.scriptId = none →
      JSCoverage.entryFor
        { (⟨true, [], [], true, true, false, false⟩ : JSCoverageState)
          with enabled := false, subscriptions := false } entry = none)) :=
  ⟨rfl, by decide, by decide, by decide, by decide, rfl,
    stop_asymmetry ⟨true, [("s1", "u1")], [("s1", "t1")], true, true⟩ []
      ("s1", "u1") ⟨true, [], [], true, true, false, false⟩ []
      rfl (by decide) (by decide) (by decide) (by decide) rfl⟩
